import Mathlib

/-!
# Verification of the audiobook generation pipeline (`audiobook-gen.py`)

A shallow embedding of the document-to-audio pipeline of `audiobook-gen.py`:
text normalization (`TextToAudio._run_kokoro`), per-unit synthesis and
encoding (`TextToAudio.run`), filename derivation (`clean_filename`,
`BookReader.partBasename`), part extraction (`BookReader.getParts`), range
selection (`BookReader._find_parts`), the background job loop
(`AudioGenerationWorker.run`), and the CLI exit-code logic
(`process_file_cli`, `main`).

Strings are modelled as `List Char`; progress percentages and job-level
fractions are modelled as `ℚ` (the Python floats involved are small decimal
literals and exact divisions of them, so rationals are faithful).  External
collaborators (the Kokoro synthesis engine, `ffmpeg`, the filesystem) are
modelled by their observable effects: the synthesis engine always produces the
intermediate waveform file, and the encoder produces the compressed file
exactly when it exits with code 0.
-/

namespace AudiobookGen

/-- The characters Python's `str.strip()` (no argument) removes: characters
with the Unicode whitespace property, as used by CPython for `str` objects.
This models the `.strip()` calls in `clean_filename` and
`BookReader.getParts`. -/
def pySpaceChars : List Char :=
  ['\t', '\n', '\x0b', '\x0c', '\r', '\x1c', '\x1d', '\x1e', '\x1f', ' ',
   '\x85', '\u00A0', '\u1680', '\u2000', '\u2001', '\u2002', '\u2003',
   '\u2004', '\u2005', '\u2006', '\u2007', '\u2008', '\u2009', '\u200A',
   '\u2028', '\u2029', '\u202F', '\u205F', '\u3000']

/-- Whether Python `str.strip()` treats `c` as whitespace. -/
def pyIsSpace (c : Char) : Bool := pySpaceChars.contains c

/-- The non-breaking space character U+00A0 replaced throughout the
source (`BookReader.getParts` and `TextToAudio._run_kokoro`). -/
def nbspChar : Char := '\u00A0'

/-- A regex word character (`\w`) as used by the contraction pattern
`\b(\w+)'(\w+)\b` in `TextToAudio._run_kokoro`: alphanumeric or underscore
(ASCII restriction of Python's Unicode-aware `\w`; the claims only involve
ASCII text). -/
def isWordChar (c : Char) : Bool := c.isAlphanum || c = '_'

/-- Python `str.isalnum()` restricted to ASCII (claims only involve ASCII
titles), used by `clean_filename`. -/
def pyIsAlnum (c : Char) : Bool := c.isAlphanum

/-- Worker loop of Python `str.replace(pat, rep)`: scan left to right; on a
match emit `rep` and skip the rest of the matched pattern (`skip` counts
pattern characters already consumed), otherwise copy one character.  This is
Python's non-overlapping left-to-right replacement. -/
def replaceGo (pat rep : List Char) : ℕ → List Char → List Char
  | _, [] => []
  | 0, c :: cs =>
    if pat.isPrefixOf (c :: cs) then rep ++ replaceGo pat rep (pat.length - 1) cs
    else c :: replaceGo pat rep 0 cs
  | k + 1, _ :: cs => replaceGo pat rep k cs

/-- Python `s.replace(pat, rep)` for a non-empty pattern, on `List Char`. -/
def pyReplace (pat rep l : List Char) : List Char := replaceGo pat rep 0 l

/-- Python `s.strip()`: drop leading and trailing whitespace characters. -/
def pyStrip (l : List Char) : List Char :=
  ((l.dropWhile pyIsSpace).reverse.dropWhile pyIsSpace).reverse

/-- Scanner state for the contraction pattern `\b(\w+)'(\w+)\b` of
`TextToAudio._run_kokoro`:
`norm` — the previous character (if any) was not a word character;
`word` — the previous character was a word character and no match is open;
`pend` — the previous two characters were a word character and an apostrophe
(the apostrophe is withheld, pending the next character);
`run2` — inside the second `(\w+)` group of a match just rewritten, where
`re.sub` has already consumed the characters and no new match may start. -/
inductive DState where
  | norm
  | word
  | pend
  | run2
deriving DecidableEq

/-- Worker for `re.sub(r"\b(\w+)'(\w+)\b", r"\1\2", txt)` from
`TextToAudio._run_kokoro`.  A match of that pattern is exactly: a maximal
nonempty run of word characters, an apostrophe, and a further nonempty run of
word characters (the leading `\b` restricts match starts to starts of word
runs, the greedy `\w+` groups must take whole runs for the `'` and the
closing `\b` to match, and `re.sub` resumes scanning after the second run).
Scanning one character at a time: an apostrophe directly after a word
character is withheld (`pend`); it is dropped when a word character follows
(a match: that run becomes `run2`, inside which no new match may start), and
re-emitted otherwise.  An apostrophe ending a `run2` run cannot open a new
pending match because `re.sub` resumes scanning only after the matched text. -/
def desubGo : DState → List Char → List Char
  | DState.pend, [] => ['\'']
  | _, [] => []
  | DState.norm, c :: cs =>
    if isWordChar c then c :: desubGo DState.word cs
    else c :: desubGo DState.norm cs
  | DState.word, c :: cs =>
    if isWordChar c then c :: desubGo DState.word cs
    else if c = '\'' then desubGo DState.pend cs
    else c :: desubGo DState.norm cs
  | DState.pend, c :: cs =>
    if isWordChar c then c :: desubGo DState.run2 cs
    else '\'' :: c :: desubGo DState.norm cs
  | DState.run2, c :: cs =>
    if isWordChar c then c :: desubGo DState.run2 cs
    else c :: desubGo DState.norm cs

/-- `re.sub(r"\b(\w+)'(\w+)\b", r"\1\2", txt)`: remove the apostrophe from
contraction-like tokens. -/
def desub (l : List Char) : List Char := desubGo DState.norm l

/-- The ellipsis pattern `". . ."` collapsed by `TextToAudio._run_kokoro`. -/
def ellipsisPat : List Char := ['.', ' ', '.', ' ', '.']

/-- The text transformation at the head of `TextToAudio._run_kokoro`
(lines 310-319): replace newlines by spaces, replace non-breaking spaces by
spaces, collapse `". . ."` to `"."`, strip apostrophes from contractions, and
append a newline after each `'.'`, `'!'`, `'?'` (three successive
`str.replace` calls, in that order). -/
def normalize (txt : List Char) : List Char :=
  pyReplace ['?'] ['?', '\n']
    (pyReplace ['!'] ['!', '\n']
      (pyReplace ['.'] ['.', '\n']
        (desub
          (pyReplace ellipsisPat ['.']
            (pyReplace [nbspChar] [' ']
              (pyReplace ['\n'] [' '] txt))))))

/-- The text normalization as the spec words it, for comparison with
`normalize`: (1) every newline becomes a single space, (2) every
non-breaking space becomes an ordinary space, (3) every `". . ."` sequence
becomes `"."`, (4) the apostrophe is removed from contraction-like tokens,
(5) a newline is inserted after each `'.'`, `'!'` and `'?'`.  Steps (3) and
(4) coincide verbatim with the code's wording and reuse its embedding;
steps (1), (2) and (5) are stated as the spec phrases them (per-character
maps and a single simultaneous insertion pass). -/
def normalizeSpec (txt : List Char) : List Char :=
  ((desub
      (pyReplace ellipsisPat ['.']
        ((txt.map (fun c => if c = '\n' then ' ' else c)).map
          (fun c => if c = nbspChar then ' ' else c)))).flatMap
    (fun c => if c = '.' ∨ c = '!' ∨ c = '?' then [c, '\n'] else [c]))

/-- `clean_filename(parts)`: in each part replace every character that is not
alphanumeric, `'-'` or `'_'` by `'_'`, strip the result, and join the parts
with `'_'`. -/
def clean_filename (parts : List (List Char)) : List Char :=
  List.intercalate ['_']
    (parts.map (fun p =>
      pyStrip (p.map (fun c =>
        if pyIsAlnum c || c = '-' || c = '_' then c else '_'))))

/-- Python `f"{i:03d}"` for a natural number: decimal digits zero-padded on
the left to at least three characters. -/
def fmt03 (i : ℕ) : List Char :=
  let ds := Nat.toDigits 10 i
  List.replicate (3 - ds.length) '0' ++ ds

/-- The filename component `f"{title}_part_{i:03d}"` built by
`BookReader.partBasename` (the `os.path.join(outDir, ...)` directory prefix
is omitted: the claims concern the basename itself). -/
def partBasename (title : List Char) (i : ℕ) : List Char :=
  title ++ "_part_".toList ++ fmt03 i

/-- The suffix `".txt"` stripped by `TextToAudio.run`. -/
def txtSuffix : List Char := ['.', 't', 'x', 't']

/-- The extension of the intermediate waveform file. -/
def wavExt : List Char := ['.', 'w', 'a', 'v']

/-- The extension of the final compressed file. -/
def opusExt : List Char := ['.', 'o', 'p', 'u', 's']

/-- `TextToAudio.run`: `if filename.endswith('.txt'): filename = filename[:-4]`. -/
def ttsBase (filename : List Char) : List Char :=
  if txtSuffix.isSuffixOf filename then filename.take (filename.length - 4)
  else filename

/-- The intermediate waveform path `filename + ".wav"` of `TextToAudio.run`
(after the `".txt"` strip). -/
def waveFileOf (filename : List Char) : List Char := ttsBase filename ++ wavExt

/-- The final compressed path `filename + ".opus"` of `TextToAudio.run`
(after the `".txt"` strip). -/
def opusFileOf (filename : List Char) : List Char := ttsBase filename ++ opusExt

/-- The sequence of `(percent, message)` progress reports `TextToAudio.run`
issues through its callback, as a function of whether the `ffmpeg` encoder
call exits with code 0: 5 and 75 always, then 95 and 100 only on encoder
success. -/
def ttsRunEvents (encOk : Bool) : List (ℚ × String) :=
  [(5, "Generating WAV..."), (75, "Converting to OPUS...")] ++
    (if encOk then [(95, "Deleting WAV..."), (100, "Generation complete")] else [])

/-- `TextToAudio.run` on one unit: the emitted progress reports together with
the resulting set of files on disk.  `fs` is the set of files before the run;
`encOk` is whether the external encoder exits with code 0.  The synthesis
step always writes the waveform file; on encoder success the compressed file
is written, the waveform file is removed (`subprocess.run(["rm", waveFile])`)
and the 95/100 milestones are reported; on encoder failure the run returns
after the 75 milestone, leaving the waveform file and not producing the
compressed file. -/
def ttsRun (fs : Finset (List Char)) (filename : List Char) (encOk : Bool) :
    List (ℚ × String) × Finset (List Char) :=
  let waveFile := waveFileOf filename
  let opusFile := opusFileOf filename
  let fsAfterWav := insert waveFile fs
  if encOk then
    ([(5, "Generating WAV..."), (75, "Converting to OPUS..."),
      (95, "Deleting WAV..."), (100, "Generation complete")],
     (insert opusFile fsAfterWav).erase waveFile)
  else
    ([(5, "Generating WAV..."), (75, "Converting to OPUS...")], fsAfterWav)

/-- The two kinds of progress signal `AudioGenerationWorker.run` emits: the
adapter-mapped sub-step reports forwarded from `TextToAudio.run`, and the
per-unit completion report emitted after `tts.run` returns. -/
inductive EventKind where
  | subStep
  | partComplete
deriving DecidableEq

/-- One `progress.emit(message, fraction)` of `AudioGenerationWorker.run`,
tagged with which call site emitted it. -/
structure PEvent where
  kind : EventKind
  message : String
  fraction : ℚ
deriving DecidableEq

/-- The progress adapter `part_progress_callback` built by
`AudioGenerationWorker.run` for the unit with 1-based number `current` out of
`total`: sub-step percent `p` becomes overall fraction
`((current - 1) + p / 100) / total` and the message is tagged
`"Part <current>/<total>: <message>"`. -/
def adaptEvent (current total : ℕ) (pm : ℚ × String) : PEvent :=
  { kind := EventKind.subStep
    message := "Part " ++ toString current ++ "/" ++ toString total ++ ": " ++ pm.2
    fraction := ((current : ℚ) - 1 + pm.1 / 100) / (total : ℚ) }

/-- All events one loop iteration of `AudioGenerationWorker.run` emits for
the unit with 1-based number `current` out of `total`: the adapter-mapped
sub-steps of `tts.run`, followed by the part-completion event with fraction
`current / total`. -/
def unitEvents (current total : ℕ) (encOk : Bool) : List PEvent :=
  (ttsRunEvents encOk).map (adaptEvent current total) ++
    [{ kind := EventKind.partComplete
       message := "Completed part " ++ toString current ++ "/" ++ toString total
       fraction := (current : ℚ) / (total : ℚ) }]

/-- The sequence of progress events one `AudioGenerationWorker.run` job emits
for the range `start_idx = s` to `end_idx = e` over a book with `n` parts,
given the per-unit encoder outcome `encOk`.  The loop runs `i` from `s` to
`e` inclusive with `current = i - s + 1` and `total = e - s + 1`; an index
out of range of `self.book.parts` raises `IndexError` before any event of
that iteration, ending the run (the `takeWhile`), so only in-bounds indices
contribute events. -/
def workerEvents (n : ℕ) (encOk : ℕ → Bool) (s e : ℕ) : List PEvent :=
  (((List.range' s (e + 1 - s)).takeWhile (fun i => i < n)).flatMap
    (fun i => unitEvents (i - s + 1) (e + 1 - s) (encOk i)))

/-- `BookReader.getParts` body for one document item: the item text is
stripped and its non-breaking spaces replaced by ordinary spaces
(`soup.get_text().strip().replace(' ', ' ')`). -/
def extractText (raw : List Char) : List Char :=
  pyReplace [nbspChar] [' '] (pyStrip raw)

/-- The parts list `BookReader.getParts` computes from the document items:
each item's extracted text, kept only if non-empty. -/
def computeParts (items : List (List Char)) : List (List Char) :=
  (items.map extractText).filter (fun t => !t.isEmpty)

/-- `BookReader.getParts` as a function of the `self.parts` cache and the
document items, returning the result together with the new cache: if the
cache is non-empty it is returned unchanged, otherwise the parts are
computed (and stored). -/
def getParts (cache : List (List Char)) (items : List (List Char)) :
    List (List Char) × List (List Char) :=
  if cache.isEmpty then (computeParts items, computeParts items)
  else (cache, cache)

/-- The numeric-hint path of `BookReader._find_parts`: a parsed pair
`[a, b]` is accepted (returned unchanged) iff
`a < b and a >= 0 and b < len(parts)`; any other parse result is rejected. -/
def acceptHint (n : ℕ) (nums : List ℤ) : Option (ℤ × ℤ) :=
  match nums with
  | [a, b] => if a < b ∧ 0 ≤ a ∧ b < (n : ℤ) then some (a, b) else none
  | _ => none

/-- The forward interactive scan of `BookReader._find_parts`: indices
`0, 1, ..., n-1` are offered in turn; the first confirmed one becomes the
start, defaulting to 0 when none is confirmed.  `ans i` models whether the
user answers `"y"` at index `i`. -/
def findStart (n : ℕ) (ans : ℕ → Bool) : ℕ :=
  match (List.range n).find? (fun i => ans i) with
  | some i => i
  | none => 0

/-- The backward interactive scan of `BookReader._find_parts`: indices
`n-1, n-2, ..., 1` are offered in turn (`range(endIdx, 0, -1)` stops before
index 0); the first confirmed one becomes the end, defaulting to `n-1` when
none is confirmed. -/
def findEnd (n : ℕ) (ans : ℕ → Bool) : ℕ :=
  match ((List.range' 1 (n - 1)).reverse).find? (fun i => ans i) with
  | some i => i
  | none => n - 1

/-- `BookReader._find_parts` over `n` parts.  `hint` is the parsed form of
the typed range line: `none` when `int(...)` parsing raised
(`ValueError`/`IndexError`), `some nums` for a successfully parsed list of
integers.  An accepted two-number hint is returned as is; otherwise the
interactive forward/backward boundary scans (with answer oracles `ansS`,
`ansE`) produce the range. -/
def findParts (n : ℕ) (hint : Option (List ℤ)) (ansS ansE : ℕ → Bool) : ℤ × ℤ :=
  match hint with
  | some nums =>
    match acceptHint n nums with
    | some r => r
    | none => ((findStart n ansS : ℤ), (findEnd n ansE : ℤ))
  | none => ((findStart n ansS : ℤ), (findEnd n ansE : ℤ))

/-- Whether `process_file_cli` returns `True` for a given `--mode` argument
(`none` models `args.mode is None`): `False` for a missing mode, `True` for
the handled modes `dump`, `dir`, `txt`, `False` (with an "Unknown mode"
message) otherwise.  The file work done by the handled modes is not part of
the exit-code claims. -/
def process_file_cli (mode : Option String) : Bool :=
  match mode with
  | none => false
  | some m =>
    if m = "dump" then true
    else if m = "dir" then true
    else if m = "txt" then true
    else false

/-- The `for f in args.files` processing loop of `main`: stops at the first
file whose processing fails (`success = False; break`), yielding whether all
files processed successfully. -/
def processFiles (mode : Option String) : List String → Bool
  | [] => true
  | _ :: fs => if process_file_cli mode then processFiles mode fs else false

/-- The exit code of `main` after the GUI branch: 1 as soon as some named
input does not exist (`exI` models `os.path.exists`), else 0 for `list`
mode, else 0 iff every file processes successfully. -/
def mainExit (mode : Option String) (files : List String) (exI : String → Bool) : ℕ :=
  if files.any (fun f => !(exI f)) then 1
  else if mode = some "list" then 0
  else if processFiles mode files then 0 else 1

/-- C3 (counterexample): the output basename derived from title `"My Book!"`
and index 7 is NOT `"My_Book_part_007"`: the trailing `'!'` is itself
replaced by `'_'` and `.strip()` removes only whitespace, so the sanitized
title is `"My_Book_"` and the basename carries a double underscore. -/
theorem basename_my_book_7_counterexample :
    partBasename (clean_filename ["My Book!".toList]) 7 ≠ "My_Book_part_007".toList := by
  decide

/-- C3 (amended): the output basename derived from title `"My Book!"` and
index 7 equals `"My_Book__part_007"`: sanitization replaces every character
that is not alphanumeric, `'-'` or `'_'` with `'_'` (including the trailing
`'!'`, which therefore leaves a trailing underscore on the title), and the
index is zero-padded to 3 digits after `"_part_"`. -/
theorem basename_my_book_7 :
    partBasename (clean_filename ["My Book!".toList]) 7 = "My_Book__part_007".toList := by
  decide

/-! ## The job loop: event structure (C1) and monotone progress (C6) -/

theorem workerEvents_eq {n s e : ℕ} (encOk : ℕ → Bool) (hse : s ≤ e) (hen : e < n) :
    workerEvents n encOk s e =
      (List.range (e + 1 - s)).flatMap
        (fun k => unitEvents (k + 1) (e + 1 - s) (encOk (s + k))) := by
  unfold workerEvents
  rw [List.takeWhile_eq_self_iff.mpr, List.range'_eq_map_range, List.flatMap_map]
  · congr 1
    funext k
    have h1 : s + k - s + 1 = k + 1 := by omega
    rw [h1]
  · intro x hx
    rw [List.mem_range'_1] at hx
    simp only [decide_eq_true_eq]
    omega

theorem filter_partComplete_unitEvents (c t : ℕ) (b : Bool) :
    (unitEvents c t b).filter (fun ev => decide (ev.kind = EventKind.partComplete)) =
      [{ kind := EventKind.partComplete
         message := "Completed part " ++ toString c ++ "/" ++ toString t
         fraction := (c : ℚ) / (t : ℚ) }] := by
  cases b <;> rfl

theorem filter_partComplete_flatMap (t : ℕ) (g : ℕ → Bool) (l : List ℕ) :
    ((l.flatMap (fun k => unitEvents (k + 1) t (g k))).filter
        (fun ev => decide (ev.kind = EventKind.partComplete))) =
      l.map (fun k =>
        { kind := EventKind.partComplete
          message := "Completed part " ++ toString (k + 1) ++ "/" ++ toString t
          fraction := ((k + 1 : ℕ) : ℚ) / (t : ℚ) }) := by
  induction l with
  | nil => rfl
  | cons a l ih =>
    rw [List.flatMap_cons, List.filter_append, ih, filter_partComplete_unitEvents,
      List.map_cons]
    rfl

/-- C1: over any in-bounds range `s ≤ e < n`, one job run emits, for each
unit `i = s + k` (`k`-th of the range, in increasing index order, with
`current = k + 1` and `total = e - s + 1`), each sub-step report of percent
`p` as an event with overall fraction `((current - 1) + p / 100) / total`
and message `"Part <current>/<total>: <message>"`, followed by one
part-completion event with fraction exactly `current / total`; consequently
the part-completion events are exactly one per unit, `e - s + 1` of them, in
increasing index order. -/
theorem worker_events_per_part (n s e : ℕ) (encOk : ℕ → Bool)
    (hse : s ≤ e) (hen : e < n) :
    workerEvents n encOk s e =
      (List.range (e + 1 - s)).flatMap (fun k =>
        (ttsRunEvents (encOk (s + k))).map (fun pm =>
          { kind := EventKind.subStep
            message := "Part " ++ toString (k + 1) ++ "/" ++ toString (e + 1 - s)
              ++ ": " ++ pm.2
            fraction := (((k + 1 : ℕ) : ℚ) - 1 + pm.1 / 100) / ((e + 1 - s : ℕ) : ℚ) })
        ++ [{ kind := EventKind.partComplete
              message := "Completed part " ++ toString (k + 1) ++ "/" ++ toString (e + 1 - s)
              fraction := ((k + 1 : ℕ) : ℚ) / ((e + 1 - s : ℕ) : ℚ) }]) ∧
    (workerEvents n encOk s e).filter
        (fun ev => decide (ev.kind = EventKind.partComplete)) =
      (List.range (e + 1 - s)).map (fun k =>
        { kind := EventKind.partComplete
          message := "Completed part " ++ toString (k + 1) ++ "/" ++ toString (e + 1 - s)
          fraction := ((k + 1 : ℕ) : ℚ) / ((e + 1 - s : ℕ) : ℚ) }) := by
  constructor
  · rw [workerEvents_eq encOk hse hen]
    simp only [unitEvents]
    rfl
  · rw [workerEvents_eq encOk hse hen, filter_partComplete_flatMap]

theorem worker_events_per_part_witness :
    (workerEvents 2 (fun _ => true) 0 1).filter
        (fun ev => decide (ev.kind = EventKind.partComplete)) =
      (List.range 2).map (fun k =>
        { kind := EventKind.partComplete
          message := "Completed part " ++ toString (k + 1) ++ "/" ++ toString 2
          fraction := ((k + 1 : ℕ) : ℚ) / ((2 : ℕ) : ℚ) }) :=
  (worker_events_per_part 2 0 1 (fun _ => true) (by decide) (by decide)).2

theorem frac_le_frac {t a b : ℚ} (ht : 0 < t) (h : a ≤ b) : a / t ≤ b / t :=
  div_le_div_of_nonneg_right h ht.le

theorem unit_chain_append (c t : ℕ) (hT : (0 : ℚ) < (t : ℚ)) (b : Bool)
    (rest : List ℚ)
    (hrest : List.Chain (fun a b : ℚ => a ≤ b) ((c : ℚ) / (t : ℚ)) rest) :
    List.Chain (fun a b : ℚ => a ≤ b) (((c : ℚ) - 1) / (t : ℚ))
      ((unitEvents c t b).map PEvent.fraction ++ rest) := by
  cases b with
  | false =>
    refine List.Chain.cons ?_ (List.Chain.cons ?_ (List.Chain.cons ?_ hrest))
    · exact frac_le_frac hT (by linarith)
    · exact frac_le_frac hT (by linarith)
    · exact frac_le_frac hT (by linarith)
  | true =>
    refine List.Chain.cons ?_ (List.Chain.cons ?_ (List.Chain.cons ?_
      (List.Chain.cons ?_ (List.Chain.cons ?_ hrest))))
    · exact frac_le_frac hT (by linarith)
    · exact frac_le_frac hT (by linarith)
    · exact frac_le_frac hT (by linarith)
    · exact frac_le_frac hT (by linarith)
    · exact frac_le_frac hT (by linarith)

theorem blocks_fraction_chain (t : ℕ) (ht : 0 < t) :
    ∀ (m c0 : ℕ) (g : ℕ → Bool),
      List.Chain (fun a b : ℚ => a ≤ b) ((c0 : ℚ) / (t : ℚ))
        (((List.range m).flatMap (fun k => unitEvents (c0 + k + 1) t (g k))).map
          PEvent.fraction) := by
  have hT : (0 : ℚ) < (t : ℚ) := by exact_mod_cast ht
  intro m
  induction m with
  | zero => intro c0 g; exact List.Chain.nil
  | succ m ih =>
    intro c0 g
    have hrw : ((List.range m).map Nat.succ).flatMap
          (fun k => unitEvents (c0 + k + 1) t (g k))
        = (List.range m).flatMap
          (fun k => unitEvents ((c0 + 1) + k + 1) t (g (k + 1))) := by
      rw [List.flatMap_map]
      congr 1
      funext k
      have h1 : c0 + Nat.succ k + 1 = (c0 + 1) + k + 1 := by omega
      rw [h1, Nat.succ_eq_add_one]
    rw [List.range_succ_eq_map, List.flatMap_cons, hrw, List.map_append, Nat.add_zero]
    have hbound : ((c0 : ℚ)) / (t : ℚ) = (((c0 + 1 : ℕ) : ℚ) - 1) / (t : ℚ) := by
      push_cast
      ring_nf
    rw [hbound]
    exact unit_chain_append (c0 + 1) t hT (g 0) _ (ih (c0 + 1) (fun k => g (k + 1)))

theorem workerEvents_fraction_chain (n s e : ℕ) (encOk : ℕ → Bool)
    (hse : s ≤ e) (hen : e < n) :
    List.Chain (fun a b : ℚ => a ≤ b) 0
      ((workerEvents n encOk s e).map PEvent.fraction) := by
  rw [workerEvents_eq encOk hse hen]
  have hrw : (List.range (e + 1 - s)).flatMap
        (fun k => unitEvents (k + 1) (e + 1 - s) (encOk (s + k)))
      = (List.range (e + 1 - s)).flatMap
        (fun k => unitEvents (0 + k + 1) (e + 1 - s) (encOk (s + k))) := by
    congr 1
    funext k
    rw [Nat.zero_add]
  rw [hrw]
  have h := blocks_fraction_chain (e + 1 - s) (by omega) (e + 1 - s) 0 (fun k => encOk (s + k))
  simpa using h

/-- C6: within one job run over an in-bounds range `s ≤ e < n`, the overall
fraction carried by the emitted progress events is non-decreasing from the
first event to the last. -/
theorem worker_fraction_monotone (n s e : ℕ) (encOk : ℕ → Bool)
    (hse : s ≤ e) (hen : e < n) :
    List.Pairwise (fun a b : ℚ => a ≤ b)
      ((workerEvents n encOk s e).map PEvent.fraction) := by
  have hc := workerEvents_fraction_chain n s e encOk hse hen
  have hc' : List.Chain' (fun a b : ℚ => a ≤ b)
      ((workerEvents n encOk s e).map PEvent.fraction) := by
    cases hl : (workerEvents n encOk s e).map PEvent.fraction with
    | nil => trivial
    | cons x xs =>
      rw [hl] at hc
      exact (List.chain_cons.mp hc).2
  exact List.chain'_iff_pairwise.mp hc'

theorem worker_fraction_monotone_witness :
    List.Pairwise (fun a b : ℚ => a ≤ b)
      ((workerEvents 2 (fun _ => true) 0 1).map PEvent.fraction) :=
  worker_fraction_monotone 2 0 1 (fun _ => true) (by decide) (by decide)

/-! ## Per-unit synthesis: file effects (C2) and `.txt` stripping (C9) -/

theorem waveFile_ne_opusFile (f : List Char) : waveFileOf f ≠ opusFileOf f := by
  unfold waveFileOf opusFileOf
  intro h
  have h2 := List.append_cancel_left h
  exact absurd h2 (by decide)

/-- C2: in the per-unit synthesize operation, when the encoder exits with
code 0 a progress event at percent 95 is emitted, the intermediate waveform
file is deleted, and a completion event at percent 100 is emitted, so after
processing the waveform file does not exist; when the encoder exits
non-zero, the waveform file is left on disk, the compressed file does not
exist (provided it did not exist before the run), and no progress event
past the percent-75 encode-start milestone is emitted for that unit. -/
theorem tts_run_cleanup (fs : Finset (List Char)) (f : List Char) (encOk : Bool)
    (hopus : opusFileOf f ∉ fs) :
    (encOk = true →
      ((95 : ℚ), "Deleting WAV...") ∈ (ttsRun fs f encOk).1 ∧
      ((100 : ℚ), "Generation complete") ∈ (ttsRun fs f encOk).1 ∧
      waveFileOf f ∉ (ttsRun fs f encOk).2) ∧
    (encOk = false →
      waveFileOf f ∈ (ttsRun fs f encOk).2 ∧
      opusFileOf f ∉ (ttsRun fs f encOk).2 ∧
      ∀ p : ℚ, ∀ m : String, (p, m) ∈ (ttsRun fs f encOk).1 → p ≤ 75) := by
  constructor
  · intro h
    subst h
    refine ⟨?_, ?_, ?_⟩
    · exact List.Mem.tail _ (List.Mem.tail _ (List.Mem.head _))
    · exact List.Mem.tail _ (List.Mem.tail _ (List.Mem.tail _ (List.Mem.head _)))
    · exact Finset.not_mem_erase _ _
  · intro h
    subst h
    refine ⟨?_, ?_, ?_⟩
    · exact Finset.mem_insert_self _ _
    · rw [show (ttsRun fs f false).2 = insert (waveFileOf f) fs from rfl,
        Finset.mem_insert]
      push_neg
      exact ⟨fun h2 => (waveFile_ne_opusFile f) h2.symm, hopus⟩
    · intro p m hm
      have h5 : p = 5 ∧ m = "Generating WAV..."
          ∨ p = 75 ∧ m = "Converting to OPUS..." := by
        simpa [ttsRun] using hm
      rcases h5 with ⟨hp, _⟩ | ⟨hp, _⟩ <;> norm_num [hp]

theorem tts_run_cleanup_witness :
    waveFileOf "b".toList ∉ (ttsRun ∅ "b".toList true).2 ∧
    waveFileOf "b".toList ∈ (ttsRun ∅ "b".toList false).2 ∧
    opusFileOf "b".toList ∉ (ttsRun ∅ "b".toList false).2 :=
  ⟨((tts_run_cleanup ∅ "b".toList true (by decide)).1 rfl).2.2,
   ((tts_run_cleanup ∅ "b".toList false (by decide)).2 rfl).1,
   ((tts_run_cleanup ∅ "b".toList false (by decide)).2 rfl).2.1⟩

/-- C9: a filename ending in `".txt"` has that suffix stripped before the
output paths are derived (so the waveform and compressed paths extend the
suffix-free stem, not the full filename); any other filename is extended
as is. -/
theorem tts_txt_strip (f : List Char) :
    (txtSuffix.isSuffixOf f = true →
      ttsBase f ++ txtSuffix = f ∧
      waveFileOf f = ttsBase f ++ wavExt ∧
      opusFileOf f = ttsBase f ++ opusExt ∧
      waveFileOf f ≠ f ++ wavExt ∧
      opusFileOf f ≠ f ++ opusExt) ∧
    (txtSuffix.isSuffixOf f = false →
      waveFileOf f = f ++ wavExt ∧ opusFileOf f = f ++ opusExt) := by
  constructor
  · intro h
    obtain ⟨p, hp⟩ := List.isSuffixOf_iff_suffix.mp h
    have hlen : f.length - 4 = p.length := by
      rw [← hp, List.length_append]
      simp [txtSuffix]
    have hbase : ttsBase f = p := by
      rw [ttsBase, if_pos h, hlen, ← hp, List.take_left]
    have hflen : f.length = p.length + 4 := by
      rw [← hp, List.length_append]
      simp [txtSuffix]
    refine ⟨by rw [hbase, hp], rfl, rfl, ?_, ?_⟩
    · intro hcontra
      have := congrArg List.length hcontra
      rw [waveFileOf, List.length_append, List.length_append, hbase, hflen] at this
      simp [wavExt] at this
    · intro hcontra
      have := congrArg List.length hcontra
      rw [opusFileOf, List.length_append, List.length_append, hbase, hflen] at this
      simp [opusExt] at this
  · intro h
    have hbase : ttsBase f = f := by
      rw [ttsBase, if_neg]
      simp [h]
    exact ⟨by rw [waveFileOf, hbase], by rw [opusFileOf, hbase]⟩

theorem tts_txt_strip_witness :
    (ttsBase "a.txt".toList ++ txtSuffix = "a.txt".toList ∧
      waveFileOf "a.txt".toList = ttsBase "a.txt".toList ++ wavExt ∧
      opusFileOf "a.txt".toList = ttsBase "a.txt".toList ++ opusExt ∧
      waveFileOf "a.txt".toList ≠ "a.txt".toList ++ wavExt ∧
      opusFileOf "a.txt".toList ≠ "a.txt".toList ++ opusExt) ∧
    (waveFileOf "b".toList = "b".toList ++ wavExt ∧
      opusFileOf "b".toList = "b".toList ++ opusExt) :=
  ⟨(tts_txt_strip "a.txt".toList).1 (by decide),
   (tts_txt_strip "b".toList).2 (by decide)⟩

/-! ## Text normalization: transform structure (C5) and idempotence (C4) -/

theorem replaceGo_single (a : Char) (rep : List Char) (l : List Char) :
    replaceGo [a] rep 0 l = l.flatMap (fun c => if c = a then rep else [c]) := by
  induction l with
  | nil => rfl
  | cons c cs ih =>
    simp only [replaceGo, List.flatMap_cons, List.isPrefixOf, Bool.and_true,
      List.length_cons, List.length_nil, Nat.zero_add, Nat.sub_self]
    by_cases hc : c = a
    · subst hc
      simp [ih]
    · rw [if_neg (by simp [Ne.symm hc]), if_neg hc, ih]
      rfl

theorem pyReplace_single (a : Char) (rep : List Char) (l : List Char) :
    pyReplace [a] rep l = l.flatMap (fun c => if c = a then rep else [c]) :=
  replaceGo_single a rep l

theorem pyReplace_single_map (a b : Char) (l : List Char) :
    pyReplace [a] [b] l = l.map (fun c => if c = a then b else c) := by
  rw [pyReplace_single, List.map_eq_flatMap]
  congr 1
  funext c
  by_cases hc : c = a <;> simp [hc]

theorem pyReplace_not_occur (p0 : Char) (pr rep : List Char) (l : List Char)
    (h : p0 ∉ l) : pyReplace (p0 :: pr) rep l = l := by
  unfold pyReplace
  induction l with
  | nil => rfl
  | cons c cs ih =>
    have hc : ¬ ((p0 == c) = true) := by
      simp only [beq_iff_eq]
      intro he
      exact h (he ▸ List.mem_cons_self c cs)
    simp only [replaceGo, List.isPrefixOf]
    rw [if_neg (by simp [hc])]
    rw [ih (fun hm => h (List.mem_cons_of_mem c hm))]

theorem desubGo_no_apos (l : List Char) (h : '\'' ∉ l) :
    desubGo DState.norm l = l ∧ desubGo DState.word l = l := by
  induction l with
  | nil => exact ⟨rfl, rfl⟩
  | cons c cs ih =>
    have hc : c ≠ '\'' := fun he => h (he ▸ List.mem_cons_self c cs)
    have ih' := ih (fun hm => h (List.mem_cons_of_mem c hm))
    constructor
    · simp only [desubGo]
      by_cases hw : isWordChar c = true
      · rw [if_pos hw, ih'.2]
      · rw [if_neg hw, ih'.1]
    · simp only [desubGo]
      by_cases hw : isWordChar c = true
      · rw [if_pos hw, ih'.2]
      · rw [if_neg hw, if_neg (by simp [hc]), ih'.1]

theorem desub_no_apos (l : List Char) (h : '\'' ∉ l) : desub l = l :=
  (desubGo_no_apos l h).1

theorem step5_flatMap (l : List Char) :
    pyReplace ['?'] ['?', '\n'] (pyReplace ['!'] ['!', '\n']
        (pyReplace ['.'] ['.', '\n'] l)) =
      l.flatMap (fun c => if c = '.' ∨ c = '!' ∨ c = '?' then [c, '\n'] else [c]) := by
  rw [pyReplace_single, pyReplace_single, pyReplace_single,
    List.flatMap_assoc, List.flatMap_assoc]
  congr 1
  funext c
  by_cases h1 : c = '.'
  · subst h1; decide
  · by_cases h2 : c = '!'
    · subst h2; decide
    · by_cases h3 : c = '?'
      · subst h3; decide
      · simp [h1, h2, h3]

/-- C5: the text normalization is a pure function applying exactly, in
order: (1) every newline becomes a single space, (2) every non-breaking
space becomes an ordinary space, (3) every `". . ."` sequence becomes
`"."`, (4) the apostrophe is removed from contraction-like tokens, (5) a
newline is inserted after each `'.'`, `'!'` and `'?'` — i.e. the code's
transformation coincides with the spec-worded `normalizeSpec`. -/
theorem normalize_eq_spec (t : List Char) : normalize t = normalizeSpec t := by
  unfold normalize normalizeSpec
  rw [pyReplace_single_map, pyReplace_single_map, step5_flatMap]

/-- C4 (counterexample): the input `"a."` contains no non-breaking space and
no `". . ."` sequence, yet applying the normalization twice differs from
applying it once (`normalize "a." = "a.\n"` but the second pass turns the
inserted newline into a space and re-inserts a newline after the period,
yielding `"a.\n "`). -/
theorem normalize_not_idempotent :
    nbspChar ∉ ['a', '.'] ∧ ¬ (ellipsisPat <:+: ['a', '.']) ∧
      normalize (normalize ['a', '.']) ≠ normalize ['a', '.'] := by
  refine ⟨by decide, by decide, by decide⟩

theorem nlsp_not_mem {x : Char} (t : List Char) (hx : x ≠ ' ') (hm : x ∉ t) :
    x ∉ t.map (fun c => if c = '\n' then ' ' else c) := by
  intro hin
  obtain ⟨c, hc, he⟩ := List.mem_map.mp hin
  by_cases hcn : c = '\n'
  · rw [if_pos hcn] at he
    exact hx he.symm
  · rw [if_neg hcn] at he
    exact hm (he ▸ hc)

theorem newline_not_mem_nlsp (t : List Char) :
    '\n' ∉ t.map (fun c => if c = '\n' then ' ' else c) := by
  intro hin
  obtain ⟨c, _, he⟩ := List.mem_map.mp hin
  by_cases hcn : c = '\n'
  · rw [if_pos hcn] at he
    exact absurd he (by decide)
  · rw [if_neg hcn] at he
    exact hcn (he ▸ rfl)

theorem normalize_of_plain (t : List Char) (h0 : nbspChar ∉ t) (h1 : '.' ∉ t)
    (h2 : '!' ∉ t) (h3 : '?' ∉ t) (h4 : '\'' ∉ t) :
    normalize t = t.map (fun c => if c = '\n' then ' ' else c) := by
  unfold normalize
  rw [pyReplace_single_map '\n' ' ' t]
  set t1 := t.map (fun c => if c = '\n' then ' ' else c) with ht1
  have m0 : nbspChar ∉ t1 := nlsp_not_mem t (by decide) h0
  have m1 : '.' ∉ t1 := nlsp_not_mem t (by decide) h1
  have m2 : '!' ∉ t1 := nlsp_not_mem t (by decide) h2
  have m3 : '?' ∉ t1 := nlsp_not_mem t (by decide) h3
  have m4 : '\'' ∉ t1 := nlsp_not_mem t (by decide) h4
  rw [show ([nbspChar] : List Char) = nbspChar :: [] from rfl,
    pyReplace_not_occur nbspChar [] [' '] t1 m0]
  rw [show ellipsisPat = '.' :: [' ', '.', ' ', '.'] from rfl,
    pyReplace_not_occur '.' [' ', '.', ' ', '.'] ['.'] t1 m1]
  rw [desub_no_apos t1 m4]
  rw [show (['.'] : List Char) = '.' :: [] from rfl,
    pyReplace_not_occur '.' [] ['.', '\n'] t1 m1]
  rw [show (['!'] : List Char) = '!' :: [] from rfl,
    pyReplace_not_occur '!' [] ['!', '\n'] t1 m2]
  rw [show (['?'] : List Char) = '?' :: [] from rfl,
    pyReplace_not_occur '?' [] ['?', '\n'] t1 m3]

/-- C4 (amended): the normalization is idempotent on inputs free of
non-breaking spaces, `". . ."` sequences, sentence punctuation
(`'.'`, `'!'`, `'?'`) and apostrophes.  (The original claim — idempotence
given only the first two conditions — fails: any `'.'`, `'!'` or `'?'` in
the input makes the first pass insert a newline that the second pass
rewrites to a space while inserting a fresh newline, see the
counterexample.) -/
theorem normalize_idem_amended (t : List Char) (h0 : nbspChar ∉ t)
    (h1 : '.' ∉ t) (h2 : '!' ∉ t) (h3 : '?' ∉ t) (h4 : '\'' ∉ t) :
    normalize (normalize t) = normalize t := by
  rw [normalize_of_plain t h0 h1 h2 h3 h4]
  set t1 := t.map (fun c => if c = '\n' then ' ' else c) with ht1
  have m0 : nbspChar ∉ t1 := nlsp_not_mem t (by decide) h0
  have m1 : '.' ∉ t1 := nlsp_not_mem t (by decide) h1
  have m2 : '!' ∉ t1 := nlsp_not_mem t (by decide) h2
  have m3 : '?' ∉ t1 := nlsp_not_mem t (by decide) h3
  have m4 : '\'' ∉ t1 := nlsp_not_mem t (by decide) h4
  rw [normalize_of_plain t1 m0 m1 m2 m3 m4]
  rw [ht1, List.map_map]
  congr 1
  funext c
  by_cases hc : c = '\n' <;> simp [Function.comp, hc]

theorem normalize_idem_amended_witness :
    normalize (normalize ['a', ' ', 'b']) = normalize ['a', ' ', 'b'] :=
  normalize_idem_amended ['a', ' ', 'b'] (by decide) (by decide) (by decide)
    (by decide) (by decide)

/-! ## Range selection (C7) and CLI exit codes (C8) -/

/-- C7: the programmatic path of the range selector accepts a two-number
hint `(a, b)` (returning it unchanged) iff `0 ≤ a < b < n`; any violating
hint fails that path and the selector falls back to the interactive
boundary scan — forward scan for the start, backward scan for the end. -/
theorem find_parts_hint (n : ℕ) (a b : ℤ) (ansS ansE : ℕ → Bool) :
    (acceptHint n [a, b] = some (a, b) ↔ (0 ≤ a ∧ a < b ∧ b < (n : ℤ))) ∧
    ((0 ≤ a ∧ a < b ∧ b < (n : ℤ)) →
      findParts n (some [a, b]) ansS ansE = (a, b)) ∧
    (¬ (0 ≤ a ∧ a < b ∧ b < (n : ℤ)) →
      findParts n (some [a, b]) ansS ansE
        = ((findStart n ansS : ℤ), (findEnd n ansE : ℤ))) := by
  have hred : acceptHint n [a, b]
      = if a < b ∧ 0 ≤ a ∧ b < (n : ℤ) then some (a, b) else none := rfl
  have hred2 : findParts n (some [a, b]) ansS ansE
      = match acceptHint n [a, b] with
        | some r => r
        | none => ((findStart n ansS : ℤ), (findEnd n ansE : ℤ)) := rfl
  have hiff : acceptHint n [a, b] = some (a, b) ↔
      (0 ≤ a ∧ a < b ∧ b < (n : ℤ)) := by
    rw [hred]
    by_cases h : a < b ∧ 0 ≤ a ∧ b < (n : ℤ)
    · rw [if_pos h]
      exact ⟨fun _ => ⟨h.2.1, h.1, h.2.2⟩, fun _ => rfl⟩
    · rw [if_neg h]
      exact ⟨fun hc => absurd hc (by simp),
        fun hc => absurd ⟨hc.2.1, hc.1, hc.2.2⟩ h⟩
  refine ⟨hiff, ?_, ?_⟩
  · intro hc
    rw [hred2, hiff.mpr hc]
  · intro hn
    have hnone : acceptHint n [a, b] = none := by
      rw [hred, if_neg (fun h => hn ⟨h.2.1, h.1, h.2.2⟩)]
    rw [hred2, hnone]

theorem find_parts_hint_witness :
    findParts 5 (some [2, 1]) (fun _ => false) (fun _ => false)
        = ((findStart 5 (fun _ => false) : ℤ), (findEnd 5 (fun _ => false) : ℤ)) ∧
      findStart 5 (fun _ => false) = 0 ∧ findEnd 5 (fun _ => false) = 4 ∧
      acceptHint 5 [2, 1] = none :=
  ⟨(find_parts_hint 5 2 1 (fun _ => false) (fun _ => false)).2.2 (by omega),
   by decide, by decide, by decide⟩

theorem processFiles_true (m : Option String) (h : process_file_cli m = true) :
    ∀ files, processFiles m files = true := by
  intro files
  induction files with
  | nil => rfl
  | cons f fs ih => simp [processFiles, h, ih]

/-- C8: within the argument configurations `argparse` can produce (mode
absent or one of `dump`, `dir`, `txt`, `list`) that reach the file
processing path (the GUI branch takes `files = []` with no mode), `main`
exits 0 iff every named input exists and the mode is not the unhandled
missing mode, and exits 1 iff some named input does not exist or the mode
is missing (for which `process_file_cli` returns failure). -/
theorem main_exit_codes (mode : Option String) (files : List String)
    (exI : String → Bool)
    (hm : mode = none ∨ mode = some "dump" ∨ mode = some "dir" ∨
      mode = some "txt" ∨ mode = some "list")
    (hgui : ¬ (files = [] ∧ mode = none)) :
    (mainExit mode files exI = 0 ↔
      ((∀ f ∈ files, exI f = true) ∧ mode ≠ none)) ∧
    (mainExit mode files exI = 1 ↔
      ((∃ f ∈ files, exI f = false) ∨ mode = none)) := by
  by_cases hany : files.any (fun f => !(exI f)) = true
  · have hex : ∃ f ∈ files, exI f = false := by simpa using hany
    have hnall : ¬ (∀ f ∈ files, exI f = true) := by
      obtain ⟨f, hf, hfe⟩ := hex
      intro hall
      rw [hall f hf] at hfe
      cases hfe
    rw [mainExit, if_pos hany]
    exact ⟨⟨fun h => absurd h (by decide), fun h => absurd h.1 hnall⟩,
      ⟨fun _ => Or.inl hex, fun _ => rfl⟩⟩
  · have hall : ∀ f ∈ files, exI f = true := by
      intro f hf
      by_contra hne
      apply hany
      rw [List.any_eq_true]
      refine ⟨f, hf, ?_⟩
      cases hx : exI f with
      | true => exact absurd hx hne
      | false => rfl
    have hnex : ¬ (∃ f ∈ files, exI f = false) := by
      rintro ⟨f, hf, hfe⟩
      rw [hall f hf] at hfe
      cases hfe
    rcases hm with hm | hm | hm | hm | hm <;> subst hm
    · obtain ⟨f, fs, rfl⟩ : ∃ f fs, files = f :: fs := by
        cases files with
        | nil => exact absurd ⟨rfl, rfl⟩ hgui
        | cons f fs => exact ⟨f, fs, rfl⟩
      have hv : mainExit none (f :: fs) exI = 1 := by
        rw [mainExit, if_neg hany,
          if_neg (by simp : ¬ (none : Option String) = some "list")]
        simp [processFiles, process_file_cli]
      rw [hv]
      exact ⟨⟨fun h => absurd h (by decide), fun h => absurd rfl h.2⟩,
        ⟨fun _ => Or.inr rfl, fun _ => rfl⟩⟩
    · have hv : mainExit (some "dump") files exI = 0 := by
        rw [mainExit, if_neg hany]
        simp [processFiles_true (some "dump") (by decide) files]
      rw [hv]
      refine ⟨⟨fun _ => ⟨hall, by simp⟩, fun _ => rfl⟩,
        ⟨fun h => absurd h (by decide), fun h => ?_⟩⟩
      rcases h with h | h
      · exact absurd h hnex
      · exact absurd h (by simp)
    · have hv : mainExit (some "dir") files exI = 0 := by
        rw [mainExit, if_neg hany]
        simp [processFiles_true (some "dir") (by decide) files]
      rw [hv]
      refine ⟨⟨fun _ => ⟨hall, by simp⟩, fun _ => rfl⟩,
        ⟨fun h => absurd h (by decide), fun h => ?_⟩⟩
      rcases h with h | h
      · exact absurd h hnex
      · exact absurd h (by simp)
    · have hv : mainExit (some "txt") files exI = 0 := by
        rw [mainExit, if_neg hany]
        simp [processFiles_true (some "txt") (by decide) files]
      rw [hv]
      refine ⟨⟨fun _ => ⟨hall, by simp⟩, fun _ => rfl⟩,
        ⟨fun h => absurd h (by decide), fun h => ?_⟩⟩
      rcases h with h | h
      · exact absurd h hnex
      · exact absurd h (by simp)
    · have hv : mainExit (some "list") files exI = 0 := by
        rw [mainExit, if_neg hany]
        simp
      rw [hv]
      refine ⟨⟨fun _ => ⟨hall, by simp⟩, fun _ => rfl⟩,
        ⟨fun h => absurd h (by decide), fun h => ?_⟩⟩
      rcases h with h | h
      · exact absurd h hnex
      · exact absurd h (by simp)

theorem main_exit_codes_witness :
    mainExit (some "dump") ["a"] (fun _ => true) = 0 ∧
      mainExit none ["a"] (fun _ => true) = 1 :=
  ⟨(main_exit_codes (some "dump") ["a"] (fun _ => true)
      (Or.inr (Or.inl rfl)) (by simp)).1.mpr ⟨by simp, by simp⟩,
   (main_exit_codes none ["a"] (fun _ => true)
      (Or.inl rfl) (by simp)).2.mpr (Or.inr rfl)⟩

/-! ## Part extraction invariants (C10) -/

theorem head_dropWhile_false (p : Char → Bool) :
    ∀ (l : List Char) {c : Char}, (l.dropWhile p).head? = some c → p c = false := by
  intro l
  induction l with
  | nil => intro c h; cases h
  | cons a as ih =>
    intro c h
    by_cases ha : p a = true
    · rw [List.dropWhile_cons, if_pos ha] at h
      exact ih h
    · rw [List.dropWhile_cons, if_neg ha] at h
      have : a = c := by simpa using h
      subst this
      exact Bool.not_eq_true _ ▸ (by simpa using ha)

theorem dropWhile_eq_self_of_head (p : Char → Bool) (l : List Char)
    (h : ∀ c, l.head? = some c → p c = false) : l.dropWhile p = l := by
  cases l with
  | nil => rfl
  | cons a as =>
    rw [List.dropWhile_cons, if_neg]
    simp [h a rfl]

theorem pyStrip_head_false (l : List Char) {c : Char}
    (h : (pyStrip l).head? = some c) : pyIsSpace c = false := by
  unfold pyStrip at h
  rw [List.head?_reverse] at h
  set Z := (l.dropWhile pyIsSpace).reverse with hZ
  set Y := Z.dropWhile pyIsSpace with hY
  obtain ⟨t, ht⟩ := List.dropWhile_suffix (l := Z) pyIsSpace
  cases hYe : Y with
  | nil => rw [hYe] at h; cases h
  | cons y ys =>
    have hsome : Y.getLast?.isSome = true := by
      rw [List.getLast?_isSome, hYe]
      simp
    have hgl : Y.getLast? = Z.getLast? := by
      rw [← ht, List.getLast?_append, Option.or_of_isSome hsome]
    rw [hgl] at h
    rw [hZ, List.getLast?_reverse] at h
    exact head_dropWhile_false pyIsSpace l h

theorem pyStrip_last_false (l : List Char) {c : Char}
    (h : (pyStrip l).getLast? = some c) : pyIsSpace c = false := by
  unfold pyStrip at h
  rw [List.getLast?_reverse] at h
  exact head_dropWhile_false pyIsSpace _ h

theorem pyStrip_eq_self_of_edges (l : List Char)
    (h1 : ∀ c, l.head? = some c → pyIsSpace c = false)
    (h2 : ∀ c, l.getLast? = some c → pyIsSpace c = false) : pyStrip l = l := by
  unfold pyStrip
  rw [dropWhile_eq_self_of_head pyIsSpace l h1]
  rw [dropWhile_eq_self_of_head pyIsSpace l.reverse
    (fun c hc => h2 c (by rwa [List.head?_reverse] at hc))]
  exact List.reverse_reverse l

theorem extractText_stripped (raw : List Char) :
    pyStrip (extractText raw) = extractText raw := by
  unfold extractText
  rw [pyReplace_single_map]
  set s := pyStrip raw with hs
  apply pyStrip_eq_self_of_edges
  · intro c hc
    rw [List.head?_map] at hc
    obtain ⟨c0, hc0, he⟩ := Option.map_eq_some'.mp hc
    have h0 : pyIsSpace c0 = false := pyStrip_head_false raw hc0
    have hne : c0 ≠ nbspChar := by
      intro h
      rw [h] at h0
      exact absurd h0 (by decide)
    rw [← he, if_neg hne]
    exact h0
  · intro c hc
    rw [List.getLast?_map] at hc
    obtain ⟨c0, hc0, he⟩ := Option.map_eq_some'.mp hc
    have h0 : pyIsSpace c0 = false := pyStrip_last_false raw hc0
    have hne : c0 ≠ nbspChar := by
      intro h
      rw [h] at h0
      exact absurd h0 (by decide)
    rw [← he, if_neg hne]
    exact h0

theorem extractText_no_nbsp (raw : List Char) : nbspChar ∉ extractText raw := by
  unfold extractText
  rw [pyReplace_single_map]
  intro hin
  obtain ⟨c, _, he⟩ := List.mem_map.mp hin
  by_cases hc : c = nbspChar
  · rw [if_pos hc] at he
    exact absurd he (by decide)
  · rw [if_neg hc] at he
    exact hc he

/-- C10: every text part the extraction computes is a non-empty string
(items whose processed text is empty are skipped); each part has had its
non-breaking spaces replaced by ordinary spaces and its leading/trailing
whitespace stripped; the first call populates the cache with exactly the
computed parts, and once a non-empty parts sequence is cached, repeated
calls return the identical cached sequence. -/
theorem getParts_invariants (items : List (List Char)) :
    getParts [] items = (computeParts items, computeParts items) ∧
    (∀ p ∈ computeParts items,
      p ≠ [] ∧ nbspChar ∉ p ∧ pyStrip p = p) ∧
    (computeParts items ≠ [] →
      getParts (computeParts items) items
        = (computeParts items, computeParts items)) := by
  refine ⟨rfl, ?_, ?_⟩
  · intro p hp
    obtain ⟨hmem, hne⟩ := List.mem_filter.mp hp
    obtain ⟨raw, _, hraw⟩ := List.mem_map.mp hmem
    refine ⟨?_, ?_, ?_⟩
    · intro h
      rw [h] at hne
      cases hne
    · rw [← hraw]
      exact extractText_no_nbsp raw
    · rw [← hraw]
      exact extractText_stripped raw
  · intro h
    rw [getParts, if_neg]
    simp [h]

theorem getParts_invariants_witness :
    getParts (computeParts [" a b ".toList, "   ".toList])
        [" a b ".toList, "   ".toList]
      = (computeParts [" a b ".toList, "   ".toList],
         computeParts [" a b ".toList, "   ".toList]) :=
  (getParts_invariants [" a b ".toList, "   ".toList]).2.2 (by decide)

end AudiobookGen
